import Mathlib

/-
Verification of the `yaks` executor core (src/executor.rs, src/error.rs).

The executor registry is embedded shallowly:
* Rust `HashMap`s become association lists (`List (κ × α)`).  Rust hash maps
  have unspecified iteration order; the list order plays that role here, with
  the deterministic choice that a brand-new key is appended at the end and an
  existing key is updated in place.  No proved property depends on a
  particular tie-break beyond this determinism, which the spec itself allows.
* `Vec` fields (`free_indices`, `systems_sorted`) become `List Nat`; the head
  of `free_indices` plays the role of the `Vec` top for `pop` (the list is
  never pushed to by any operation, so the convention is immaterial).
* The `System` payload is an opaque type parameter `σ`; the `BorrowsContainer`
  (src/borrows.rs is not part of the sources) is an opaque type parameter `β`
  produced by an abstract `bo : σ → β` standing for `BorrowsContainer::new`.
* Panics (`expect(INVALID_INDEX)`) are modelled as `Except String` errors.
-/

namespace Yaks

/-- `SystemIndex` is a plain `usize` slot identifier in the source. -/
abbrev SystemIndex := Nat

/-- Modelled from the spec: `SystemContainer` (src/system_container.rs is not
part of the sources) wraps a system with its ordered dependency list and an
`active` flag; §3 of the spec fixes the shape `{ system, dependencies, active }`
with `active` defaulting to `true`, matching the uses
`SystemContainer::new(system, dependencies)`, `.unwrap_container()`,
`.active` and `.system_mut()` in src/executor.rs. -/
structure SystemContainer (H σ : Type) where
  system : σ
  dependencies : List H
  active : Bool
deriving DecidableEq

/-- Modelled from the spec: `CantInsertSystem` (the full error enum is not in
src/error.rs, which only shows the `CyclicDependency` display type); §7 of the
spec and the uses `CantInsertSystem::DependencyNotFound(String)` /
`CantInsertSystem::CyclicDependency` in src/executor.rs fix the two variants. -/
inductive CantInsertSystem where
  | CyclicDependency : CantInsertSystem
  | DependencyNotFound : String → CantInsertSystem
deriving DecidableEq

/-- The message of the `expect` used whenever an index is looked up in
`systems` (src/executor.rs line 29). -/
def INVALID_INDEX : String := "system handles should always map to valid system indices"

/-- First-match lookup in an association list (`HashMap::get`). -/
def alistGet {κ α : Type} [DecidableEq κ] : List (κ × α) → κ → Option α
  | [], _ => none
  | (k', v) :: rest, k => if k' = k then some v else alistGet rest k

/-- `HashMap::insert`: replace the value at an existing key in place and
return the old value; append a brand-new key at the end. -/
def alistInsert {κ α : Type} [DecidableEq κ] : List (κ × α) → κ → α → List (κ × α) × Option α
  | [], k, v => ([(k, v)], none)
  | (k', v') :: rest, k, v =>
    if k' = k then ((k, v) :: rest, some v')
    else ((k', v') :: (alistInsert rest k v).1, (alistInsert rest k v).2)

/-- `HashMap::remove`: drop the entry of a key, returning the old value. -/
def alistRemove {κ α : Type} [DecidableEq κ] : List (κ × α) → κ → List (κ × α) × Option α
  | [], _ => ([], none)
  | (k', v') :: rest, k =>
    if k' = k then (rest, some v')
    else ((k', v') :: (alistRemove rest k).1, (alistRemove rest k).2)

/-- The observable executor state: the fields of `Executor<H>` in
src/executor.rs that the claims speak about (`systems`, `system_handles`,
`free_indices`, `systems_sorted`, `borrows`).  The remaining parallel-mode
fields (`all_resources`, `all_components`, the scratch run sets and the
completion channel) are run-time scratch recomputed from these and are not
part of any claim's observable state. -/
structure Executor (H σ β : Type) where
  systems : List (SystemIndex × SystemContainer H σ)
  system_handles : List (H × SystemIndex)
  free_indices : List SystemIndex
  systems_sorted : List SystemIndex
  borrows : List (SystemIndex × β)
deriving DecidableEq

/-- `Executor::new` / `Default::default`. -/
def Executor.empty {H σ β : Type} : Executor H σ β := ⟨[], [], [], [], []⟩

variable {H σ β : Type} [DecidableEq H]

/-- `new_system_index`: pop the free list, else use `systems.len()`.  Returns
the index together with the (possibly) mutated executor. -/
def new_system_index (E : Executor H σ β) : SystemIndex × Executor H σ β :=
  match E.free_indices with
  | i :: rest => (i, { E with free_indices := rest })
  | [] => (E.systems.length, E)

/-- `resolve_handle`: look a handle up in `system_handles` (`Err(NoSuchSystem)`
becomes `none`). -/
def resolve_handle (E : Executor H σ β) (handle : H) : Option SystemIndex :=
  alistGet E.system_handles handle

/-- Outcome of walking one candidate's dependency list during the sort. -/
inductive DepCheck where
  | satisfied : DepCheck
  | unsatisfied : DepCheck
  | invalid : String → DepCheck
deriving DecidableEq

/-- The dependency walk of one candidate inside `insert_inner`'s sort loop:
dependencies are scanned in order; the first one that resolves to a not yet
placed index stops the walk as unsatisfied, and the first one that fails to
resolve stops it with the handle's debug rendering. -/
def checkDeps (dbg : H → String) (handles : List (H × SystemIndex))
    (sorted : List SystemIndex) : List H → DepCheck
  | [] => DepCheck.satisfied
  | d :: rest =>
    match alistGet handles d with
    | some j => if j ∈ sorted then checkDeps dbg handles sorted rest else DepCheck.unsatisfied
    | none => DepCheck.invalid (dbg d)

/-- Outcome of one scan over the not-yet-placed systems. -/
inductive ScanResult where
  | placed : SystemIndex → ScanResult
  | invalid : String → ScanResult
  | stuck : ScanResult
deriving DecidableEq

/-- One full scan of `insert_inner`'s sort loop over the registry entries in
iteration order, skipping already placed indices: the first satisfied
candidate is placed (breaking the scan), an invalid dependency aborts the
scan, and a scan that places no one and sees no invalid dependency is stuck
(`cycles` stays `true` in the source). -/
def scanPassGo (dbg : H → String) (handles : List (H × SystemIndex))
    (sorted : List SystemIndex) : List (SystemIndex × SystemContainer H σ) → ScanResult
  | [] => ScanResult.stuck
  | (i, c) :: rest =>
    if i ∈ sorted then scanPassGo dbg handles sorted rest
    else
      match checkDeps dbg handles sorted c.dependencies with
      | DepCheck.invalid s => ScanResult.invalid s
      | DepCheck.unsatisfied => scanPassGo dbg handles sorted rest
      | DepCheck.satisfied => ScanResult.placed i

/-- One pass of the sort loop over the whole registry. -/
def scanPass (dbg : H → String) (systems : List (SystemIndex × SystemContainer H σ))
    (handles : List (H × SystemIndex)) (sorted : List SystemIndex) : ScanResult :=
  scanPassGo dbg handles sorted systems

/-- The `while self.systems_sorted.len() != self.systems.len()` loop of
`insert_inner`, with explicit fuel.  Each successful pass appends exactly one
new index, so `systems.length + 1` units of fuel always suffice (the fuel-out
branch is unreachable from the call in `insert_inner`); failure returns the
partially built vector as the source leaves it. -/
def sortLoop (dbg : H → String) (systems : List (SystemIndex × SystemContainer H σ))
    (handles : List (H × SystemIndex)) :
    Nat → List SystemIndex → List SystemIndex × Option CantInsertSystem
  | 0, sorted => (sorted, none)
  | fuel + 1, sorted =>
    if sorted.length = systems.length then (sorted, none)
    else
      match scanPass dbg systems handles sorted with
      | ScanResult.placed i => sortLoop dbg systems handles fuel (sorted ++ [i])
      | ScanResult.invalid s => (sorted, some (CantInsertSystem.DependencyNotFound s))
      | ScanResult.stuck => (sorted, some CantInsertSystem.CyclicDependency)

/-- The index-allocation prelude of `insert_inner`: with a handle, reuse the
existing index or allocate a fresh one and bind the handle to it; without a
handle, just allocate. -/
def insertAlloc (E : Executor H σ β) : Option H → SystemIndex × Executor H σ β
  | some h =>
    match alistGet E.system_handles h with
    | some i => (i, E)
    | none =>
      let p := new_system_index E
      (p.1, { p.2 with system_handles := (alistInsert p.2.system_handles h p.1).1 })
  | none => new_system_index E

/-- The installation prefix of `insert_inner`: allocate the index, then insert
the borrows container and the system container, keeping the displaced values.
Returns the executor, the new index, the displaced `(deps, system)` pair
(`unwrap_container`) and the displaced borrows. -/
def insertInstall (bo : σ → β) (E : Executor H σ β) (system : σ) (handle : Option H)
    (dependencies : List H) :
    Executor H σ β × SystemIndex × Option (List H × σ) × Option β :=
  let p := insertAlloc E handle
  let pb := alistInsert p.2.borrows p.1 (bo system)
  let ps := alistInsert p.2.systems p.1 (SystemContainer.mk system dependencies true)
  ({ p.2 with borrows := pb.1, systems := ps.1 },
   p.1,
   ps.2.map (fun c => (c.dependencies, c.system)),
   pb.2)

/-- `insert_inner` (src/executor.rs lines 122-214).  With dependencies the
sort is redone from scratch; on failure the source restores the displaced
borrows container and reinstalls the displaced system through
`SystemContainer::new` (so with `active := true`), and nothing else. -/
def insert_inner (bo : σ → β) (dbg : H → String) (E : Executor H σ β) (system : σ)
    (handle : Option H) (dependencies : List H) :
    Executor H σ β × Except CantInsertSystem (Option (List H × σ)) :=
  let q := insertInstall bo E system handle dependencies
  if dependencies.isEmpty then
    ({ q.1 with systems_sorted := q.1.systems_sorted ++ [q.2.1] }, Except.ok q.2.2.1)
  else
    match sortLoop dbg q.1.systems q.1.system_handles (q.1.systems.length + 1) [] with
    | (sorted, none) => ({ q.1 with systems_sorted := sorted }, Except.ok q.2.2.1)
    | (sorted, some err) =>
      let E3 := { q.1 with systems_sorted := sorted }
      let E4 :=
        match q.2.2.2 with
        | some bc => { E3 with borrows := (alistInsert E3.borrows q.2.1 bc).1 }
        | none => E3
      let E5 :=
        match q.2.2.1 with
        | some ds =>
          { E4 with systems :=
              (alistInsert E4.systems q.2.1 (SystemContainer.mk ds.2 ds.1 true)).1 }
        | none => E4
      (E5, Except.error err)

/-- `insert`: no handle, no dependencies. -/
def insert (bo : σ → β) (dbg : H → String) (E : Executor H σ β) (system : σ) :
    Executor H σ β × Except CantInsertSystem (Option (List H × σ)) :=
  insert_inner bo dbg E system none []

/-- `insert_with_handle`. -/
def insert_with_handle (bo : σ → β) (dbg : H → String) (E : Executor H σ β) (system : σ)
    (handle : H) : Executor H σ β × Except CantInsertSystem (Option (List H × σ)) :=
  insert_inner bo dbg E system (some handle) []

/-- `insert_with_deps`. -/
def insert_with_deps (bo : σ → β) (dbg : H → String) (E : Executor H σ β) (system : σ)
    (dependencies : List H) :
    Executor H σ β × Except CantInsertSystem (Option (List H × σ)) :=
  insert_inner bo dbg E system none dependencies

/-- `insert_with_handle_and_deps`. -/
def insert_with_handle_and_deps (bo : σ → β) (dbg : H → String) (E : Executor H σ β)
    (system : σ) (handle : H) (dependencies : List H) :
    Executor H σ β × Except CantInsertSystem (Option (List H × σ)) :=
  insert_inner bo dbg E system (some handle) dependencies

/-- `remove` (src/executor.rs lines 245-257): drop the handle binding; if one
existed, drop the borrows entry and the system container at its index and
return the `(deps, system)` pair.  The source touches neither
`systems_sorted` nor `free_indices`. -/
def remove (E : Executor H σ β) (handle : H) :
    Executor H σ β × Option (List H × σ) :=
  match alistRemove E.system_handles handle with
  | (handles', some i) =>
    ({ E with system_handles := handles',
              borrows := (alistRemove E.borrows i).1,
              systems := (alistRemove E.systems i).1 },
     ((alistRemove E.systems i).2).map (fun c => (c.dependencies, c.system)))
  | (handles', none) => ({ E with system_handles := handles' }, none)

/-- `contains`. -/
def contains (E : Executor H σ β) (handle : H) : Bool :=
  (alistGet E.system_handles handle).isSome

/-- `is_active`: `none` models `Err(NoSuchSystem)`; the inner
`expect(INVALID_INDEX)` panic cannot be told apart from it observably here,
so a dangling binding is reported as `none` as well. -/
def is_active (E : Executor H σ β) (handle : H) : Option Bool :=
  match resolve_handle E handle with
  | some i => (alistGet E.systems i).map (·.active)
  | none => none

/-- Result of `set_active`: success, `Err(NoSuchSystem)`, or the
`expect(INVALID_INDEX)` panic. -/
inductive SetActiveResult where
  | ok : SetActiveResult
  | noSuchSystem : SetActiveResult
  | panicInvalidIndex : SetActiveResult
deriving DecidableEq

/-- `set_active` (src/executor.rs lines 282-288). -/
def set_active (E : Executor H σ β) (handle : H) (active : Bool) :
    Executor H σ β × SetActiveResult :=
  match resolve_handle E handle with
  | none => (E, SetActiveResult.noSuchSystem)
  | some i =>
    match alistGet E.systems i with
    | none => (E, SetActiveResult.panicInvalidIndex)
    | some c =>
      ({ E with systems := (alistInsert E.systems i { c with active := active }).1 },
       SetActiveResult.ok)

/-- The iteration of `run`: walk `systems_sorted`, look each index up in
`systems` (panicking with `INVALID_INDEX` when absent), and record the
indices whose container is active — these are the systems whose bodies get
invoked, in this order, on the calling thread. -/
def runTraceGo (systems : List (SystemIndex × SystemContainer H σ)) :
    List SystemIndex → List SystemIndex → Except String (List SystemIndex)
  | [], acc => Except.ok acc.reverse
  | i :: rest, acc =>
    match alistGet systems i with
    | none => Except.error INVALID_INDEX
    | some c => runTraceGo systems rest (if c.active then i :: acc else acc)

/-- `run` (src/executor.rs lines 290-299): the returned trace is the ordered
list of invoked system indices. -/
def run (E : Executor H σ β) : Except String (List SystemIndex) :=
  runTraceGo E.systems E.systems_sorted []

/-- `run_with_scope` (src/executor.rs lines 301-317): the very same loop over
`systems_sorted` as `run`, invoking `System::run_with_scope` instead of
`System::run` on each active container. -/
def run_with_scope (E : Executor H σ β) : Except String (List SystemIndex) :=
  runTraceGo E.systems E.systems_sorted []

/-- A container at index `i` is active (used to describe `run`'s trace). -/
def activeAt (E : Executor H σ β) (i : SystemIndex) : Bool :=
  match alistGet E.systems i with
  | some c => c.active
  | none => false

/-- The indices of active systems in `systems_sorted` order: exactly the
systems a (non-panicking) `run` invokes. -/
def activeList (E : Executor H σ β) : List SystemIndex :=
  E.systems_sorted.filter (fun i => activeAt E i)

end Yaks

namespace Yaks

deriving instance DecidableEq for Except

/-- Trivial borrows extraction for `Unit` system payloads, used by the
concrete executor states below. -/
def unitBorrows : Unit → Unit := fun _ => ()

/-- Debug rendering of `Nat` handles (`format!("{:?}", n)` for an integer). -/
def natDebug : Nat → String := toString

/-- The empty executor over `Nat` handles and `Unit` payloads. -/
def execN : Executor Nat Unit Unit := Executor.empty

/-- Claim C1: the claim asserts that an insertion failing with
`CyclicDependency` or `DependencyNotFound` leaves the whole observable state
unchanged.  The code violates this: on the empty executor,
`insert_with_deps(s, [7])` (handle `7` unregistered) returns
`DependencyNotFound("7")`, yet the freshly installed container stays in
`systems` (with its borrows entry), even though the pre-call `systems` was
empty; `systems_sorted` has also been cleared and rebuilt rather than
restored.  This evaluates the code at the failing input of the `code_bug`
verdict. -/
theorem c1_failed_insert_mutates_state :
    (insert_with_deps unitBorrows natDebug execN () [7]).2
      = Except.error (CantInsertSystem.DependencyNotFound "7") ∧
    (insert_with_deps unitBorrows natDebug execN () [7]).1.systems
      = [(0, SystemContainer.mk () [7] true)] ∧
    (insert_with_deps unitBorrows natDebug execN () [7]).1.borrows = [(0, ())] ∧
    execN.systems = [] ∧
    (insert_with_deps unitBorrows natDebug execN () [7]).1 ≠ execN := by
  refine ⟨by decide, by decide, by decide, by decide, by decide⟩

/-- Executor holding one system at handle `10`, index `0`. -/
def c2state : Executor Nat Unit Unit := (insert_with_handle unitBorrows natDebug execN () 10).1

/-- Claim C2: the claim asserts that `remove(h)` drops the system's index
from `systems_sorted` and pushes it onto the free list.  The code does
neither: removing the only system (handle `10`, index `0`) returns the
removed `(deps, system)` pair and empties `systems`, `system_handles` and
`borrows`, but `systems_sorted` still contains the stale index `0` and
`free_indices` stays empty.  This evaluates the code at the failing input of
the `code_bug` verdict. -/
theorem c2_remove_leaves_stale_index :
    (remove c2state 10).2 = some ([], ()) ∧
    (remove c2state 10).1.systems = [] ∧
    (remove c2state 10).1.system_handles = [] ∧
    (remove c2state 10).1.systems_sorted = [0] ∧
    (remove c2state 10).1.free_indices = [] := by
  refine ⟨by decide, by decide, by decide, by decide, by decide⟩

/-- Executor holding one system at handle `1`, index `0`. -/
def c3state : Executor Nat Unit Unit := (insert_with_handle unitBorrows natDebug execN () 1).1

/-- Claim C3: the claim asserts that after every successful insertion
(including a replacement) `systems_sorted` holds exactly the current index
set without duplicates.  The code violates this: re-inserting at the already
bound handle `1` with no dependencies succeeds (returning the displaced
system) but appends the reused index again, leaving
`systems_sorted = [0, 0]` while the registry holds the single index `0`.
This evaluates the code at the failing input of the `code_bug` verdict. -/
theorem c3_replacement_duplicates_sorted :
    (insert_with_handle unitBorrows natDebug c3state () 1).2 = Except.ok (some ([], ())) ∧
    (insert_with_handle unitBorrows natDebug c3state () 1).1.systems_sorted = [0, 0] ∧
    (insert_with_handle unitBorrows natDebug c3state () 1).1.systems.map Prod.fst = [0] := by
  refine ⟨by decide, by decide, by decide⟩

/-- Executor built by inserting at handles `1` (index 0) and `2` (index 1)
and then removing handle `1`: one live system remains, at index `1`, while
`systems.len()` is `1`. -/
def c4state : Executor Nat Unit Unit :=
  (remove (insert_with_handle unitBorrows natDebug
    (insert_with_handle unitBorrows natDebug execN () 1).1 () 2).1 1).1

/-- Claim C4: the claim asserts `insert(system)` always returns `Ok(None)`.
`Ok` always holds, but on `c4state` the allocated index is
`systems.len() = 1`, which is the index of the live system at handle `2`;
the insertion displaces it and returns `Ok(Some(deps, system))`.  This
evaluates the code at the failing input of the `code_bug` verdict. -/
theorem c4_insert_returns_displaced_system :
    alistGet c4state.systems 1 = some (SystemContainer.mk () [] true) ∧
    resolve_handle c4state 2 = some 1 ∧
    (insert unitBorrows natDebug c4state ()).2 = Except.ok (some ([], ())) := by
  refine ⟨by decide, by decide, by decide⟩

/-- Executor after: insert at handle `1` (index 0); insert at handle `2`
(index 1) depending on `[1]`; insert at handle `3` (index 2); a failed
replacement of handle `1` with the dangling dependency `[9]` (which clears
`systems_sorted` without restoring it); then removal of handle `3`. -/
def c5state : Executor Nat Unit Unit :=
  (remove
    (insert_with_handle_and_deps unitBorrows natDebug
      (insert_with_handle unitBorrows natDebug
        (insert_with_handle_and_deps unitBorrows natDebug
          (insert_with_handle unitBorrows natDebug execN () 1).1 () 2 [1]).1
        () 3).1
      () 1 [9]).1
    3).1

/-- Claim C5: the claim asserts that after every removal (and successful
insertion) every dependency edge `j → i` has `j` before `i` in
`systems_sorted`.  In `c5state` — reached through public operations and
ending with a removal — the edge `0 → 1` is live (the system at index `1`
depends on handle `1`, which resolves to the live index `0`), yet
`systems_sorted` is empty, because the preceding failed insertion cleared it
and the rollback never restored it.  This evaluates the code at the failing
input of the `code_bug` verdict. -/
theorem c5_edge_without_order_after_remove :
    alistGet c5state.systems 1 = some (SystemContainer.mk () [1] true) ∧
    resolve_handle c5state 1 = some 0 ∧
    alistGet c5state.systems 0 = some (SystemContainer.mk () [] true) ∧
    c5state.systems_sorted = [] := by
  refine ⟨by decide, by decide, by decide, by decide⟩

/-- Executor holding a system at handle `1` (index 0) and a system at handle
`2` (index 1) whose dependency list is `[1]`. -/
def c6state : Executor Nat Unit Unit :=
  (insert_with_handle_and_deps unitBorrows natDebug
    (insert_with_handle unitBorrows natDebug execN () 1).1 () 2 [1]).1

/-- Claim C6 counterexample: the claim asserts the insertion fails with
`DependencyNotFound` exactly when some dependency handle of some candidate
does not resolve.  Replacing handle `1` with dependencies `[2, 9]` puts the
unresolvable handle `9` in a candidate's dependency list (handle `9` is not
registered), so the claim demands `DependencyNotFound("9")`; but the scan
stops walking that candidate's dependencies at `2`, which resolves to a not
yet placed index, so the pass is stuck and the code returns
`CyclicDependency` instead. -/
theorem c6_cyclic_reported_despite_dangling :
    (insert_with_handle_and_deps unitBorrows natDebug c6state () 1 [2, 9]).2
      = Except.error CantInsertSystem.CyclicDependency ∧
    resolve_handle c6state 9 = none ∧
    resolve_handle
      (insertInstall unitBorrows c6state () (some 1) [2, 9]).1 9 = none ∧
    (∃ c, alistGet (insertInstall unitBorrows c6state () (some 1) [2, 9]).1.systems 0 = some c
        ∧ 9 ∈ c.dependencies) := by
  refine ⟨by decide, by decide, by decide, ⟨SystemContainer.mk () [2, 9] true, by decide, by decide⟩⟩

/-- Executor holding one system at handle `5` (index 0), then removed:
`systems` is empty but `systems_sorted` still holds the stale index `0`. -/
def c9state : Executor Nat Unit Unit :=
  (remove (insert_with_handle unitBorrows natDebug execN () 5).1 5).1

/-- Claim C9: the claim asserts the `INVALID_INDEX` assertion in `run` never
fires on states reached through the public operations.  After inserting at
handle `5` and removing it — both public operations — `systems_sorted` holds
the stale index `0` with no container behind it, and `run` hits
`expect(INVALID_INDEX)`, i.e. panics.  This evaluates the code at the failing
input of the `code_bug` verdict. -/
theorem c9_run_panics_after_remove :
    run c9state = Except.error INVALID_INDEX ∧
    c9state.systems = [] ∧ c9state.systems_sorted = [0] := by
  refine ⟨by decide, by decide, by decide⟩

end Yaks

namespace Yaks

variable {H σ β : Type} [DecidableEq H]

/-- Unfolding `activeAt` at a present index. -/
theorem activeAt_eq_of_get (E : Executor H σ β) {i : SystemIndex}
    {c : SystemContainer H σ} (hc : alistGet E.systems i = some c) :
    activeAt E i = c.active := by
  simp [activeAt, hc]

/-- The loop of `run`: when every index of the remaining worklist maps to a
container, the trace is the accumulator (reversed) followed by the active
indices of the worklist in order. -/
theorem runTraceGo_ok (E : Executor H σ β) :
    ∀ (l acc : List SystemIndex),
      (∀ i ∈ l, (alistGet E.systems i).isSome = true) →
      runTraceGo E.systems l acc
        = Except.ok (acc.reverse ++ l.filter (fun i => activeAt E i))
  | [], acc, _ => by simp [runTraceGo]
  | i :: rest, acc, h => by
    obtain ⟨c, hc⟩ : ∃ c, alistGet E.systems i = some c :=
      Option.isSome_iff_exists.mp (h i (List.mem_cons_self i rest))
    have ih := runTraceGo_ok E rest (if c.active then i :: acc else acc)
      (fun j hj => h j (List.mem_cons_of_mem _ hj))
    have ha : activeAt E i = c.active := activeAt_eq_of_get E hc
    simp only [runTraceGo, hc]
    rw [ih]
    cases hca : c.active <;>
      simp [List.filter_cons, ha, hca, List.append_assoc]

/-- Claim C7: on any executor state whose `systems_sorted` indices all map to
containers, `run` invokes exactly the systems whose container is active, in
`systems_sorted` order, on the calling thread (the returned trace is the
ordered list of invoked indices); `run_with_scope` walks the identical loop;
and `set_active` never changes `systems_sorted` (an inactive system keeps its
entries there and is merely skipped). -/
theorem c7_run_executes_active_in_order (E : Executor H σ β)
    (hlive : ∀ i ∈ E.systems_sorted, (alistGet E.systems i).isSome = true) :
    run E = Except.ok (activeList E) ∧
    run_with_scope E = Except.ok (activeList E) ∧
    ∀ (h : H) (b : Bool), (set_active E h b).1.systems_sorted = E.systems_sorted := by
  have hrun : runTraceGo E.systems E.systems_sorted [] = Except.ok (activeList E) := by
    have := runTraceGo_ok E E.systems_sorted [] hlive
    simpa [activeList] using this
  refine ⟨hrun, hrun, ?_⟩
  intro h b
  unfold set_active
  cases hr : resolve_handle E h with
  | none => rfl
  | some i =>
    cases hg : alistGet E.systems i with
    | none => simp [hr, hg]
    | some c => simp [hr, hg]

/-- A concrete executor with two systems, the second one inactive. -/
def c7state : Executor Nat Unit Unit :=
  ⟨[(0, SystemContainer.mk () [] true), (1, SystemContainer.mk () [] false)],
   [(1, 0), (2, 1)], [], [0, 1], [(0, ()), (1, ())]⟩

/-- Witness for claim C7 at the concrete state `c7state`: both hypotheses are
discharged by computation and the conclusion is obtained from the theorem. -/
theorem c7_run_executes_active_in_order_witness :
    (∀ i ∈ c7state.systems_sorted, (alistGet c7state.systems i).isSome = true) ∧
    (run c7state = Except.ok (activeList c7state) ∧
     run_with_scope c7state = Except.ok (activeList c7state) ∧
     ∀ (h : Nat) (b : Bool), (set_active c7state h b).1.systems_sorted = c7state.systems_sorted) := by
  refine ⟨by decide, c7_run_executes_active_in_order c7state (by decide)⟩

end Yaks

namespace Yaks

variable {H σ β : Type} [DecidableEq H]

/-- Executor states reachable from the empty executor through the public
mutating operations (`insert_inner` covers all four insert methods, and its
post-state is kept whether the call succeeded or failed; `get_mut` and the
run methods do not touch the registry fields). -/
inductive Reachable (bo : σ → β) (dbg : H → String) : Executor H σ β → Prop where
  | empty : Reachable bo dbg Executor.empty
  | insert_step (E : Executor H σ β) (s : σ) (hd : Option H) (deps : List H) :
      Reachable bo dbg E → Reachable bo dbg (insert_inner bo dbg E s hd deps).1
  | remove_step (E : Executor H σ β) (h : H) :
      Reachable bo dbg E → Reachable bo dbg (remove E h).1
  | set_active_step (E : Executor H σ β) (h : H) (b : Bool) :
      Reachable bo dbg E → Reachable bo dbg (set_active E h b).1

/-- `insertAlloc` keeps an empty free list empty (the only pop comes from
`new_system_index`, and popping an empty `Vec` yields nothing). -/
theorem insertAlloc_free (E : Executor H σ β) (hd : Option H)
    (h : E.free_indices = []) : (insertAlloc E hd).2.free_indices = [] := by
  cases hd with
  | none => simp [insertAlloc, new_system_index, h]
  | some x =>
    cases hx : alistGet E.system_handles x <;>
      simp [insertAlloc, new_system_index, h, hx]

/-- `insertInstall` does not touch the free list. -/
theorem insertInstall_free (bo : σ → β) (E : Executor H σ β) (s : σ) (hd : Option H)
    (deps : List H) (h : E.free_indices = []) :
    (insertInstall bo E s hd deps).1.free_indices = [] := by
  simpa [insertInstall] using insertAlloc_free E hd h

/-- `insert_inner` keeps an empty free list empty: neither the sort loop nor
the rollback ever pushes onto (or restores) `free_indices`. -/
theorem insert_inner_free (bo : σ → β) (dbg : H → String) (E : Executor H σ β) (s : σ)
    (hd : Option H) (deps : List H) (h : E.free_indices = []) :
    (insert_inner bo dbg E s hd deps).1.free_indices = [] := by
  have hI := insertInstall_free bo E s hd deps h
  unfold insert_inner
  dsimp only
  split
  · exact hI
  · split
    · exact hI
    · dsimp only
      split <;> split <;> exact hI

/-- `remove` never touches the free list. -/
theorem remove_free (E : Executor H σ β) (h : H) :
    (remove E h).1.free_indices = E.free_indices := by
  unfold remove
  split <;> rfl

/-- `set_active` never touches the free list. -/
theorem set_active_free (E : Executor H σ β) (h : H) (b : Bool) :
    (set_active E h b).1.free_indices = E.free_indices := by
  unfold set_active
  split
  · rfl
  · split <;> rfl

/-- The state of claim C4 again, reached by public operations with fresh
handles `21`, `22`: insert twice, remove the first; the surviving system sits
at index `1` while `systems.len()` is `1`. -/
def c10state : Executor Nat Unit Unit :=
  (remove (insert_with_handle unitBorrows natDebug
    (insert_with_handle unitBorrows natDebug execN () 21).1 () 22).1 21).1

/-- Claim C10: in every reachable executor state the free-index list is empty
(no operation ever pushes onto it), so `new_system_index` always answers
`SystemIndex(systems.len())` and leaves the state untouched; and after a
removal that value can coincide with the index of a still-present system, so
that a subsequent no-handle insertion displaces that live system (shown on
`c10state`, where the live system at index `1` of handle `22` is displaced
and handed back by a plain `insert`). -/
theorem c10_free_indices_always_empty (bo : σ → β) (dbg : H → String)
    (E : Executor H σ β) (hR : Reachable bo dbg E) :
    E.free_indices = [] ∧
    new_system_index E = (E.systems.length, E) ∧
    (c10state.systems.length = 1 ∧
     alistGet c10state.systems 1 = some (SystemContainer.mk () [] true) ∧
     resolve_handle c10state 22 = some 1 ∧
     (insert unitBorrows natDebug c10state ()).2 = Except.ok (some ([], ())) ∧
     alistGet (insert unitBorrows natDebug c10state ()).1.systems 1
       = some (SystemContainer.mk () [] true)) := by
  have hfree : E.free_indices = [] := by
    induction hR with
    | empty => rfl
    | insert_step E s hd deps _ ih => exact insert_inner_free bo dbg E s hd deps ih
    | remove_step E h _ ih => rw [remove_free]; exact ih
    | set_active_step E h b _ ih => rw [set_active_free]; exact ih
  refine ⟨hfree, ?_, by decide, by decide, by decide, by decide, by decide⟩
  simp [new_system_index, hfree]

/-- Witness for claim C10 at the reachable state `c10state` itself (built by
insert, insert, remove from the empty executor). -/
theorem c10_free_indices_always_empty_witness :
    c10state.free_indices = [] ∧
    new_system_index c10state = (c10state.systems.length, c10state) ∧
    (c10state.systems.length = 1 ∧
     alistGet c10state.systems 1 = some (SystemContainer.mk () [] true) ∧
     resolve_handle c10state 22 = some 1 ∧
     (insert unitBorrows natDebug c10state ()).2 = Except.ok (some ([], ())) ∧
     alistGet (insert unitBorrows natDebug c10state ()).1.systems 1
       = some (SystemContainer.mk () [] true)) :=
  c10_free_indices_always_empty unitBorrows natDebug c10state
    (Reachable.remove_step _ 21
      (Reachable.insert_step _ () (some 22) []
        (Reachable.insert_step _ () (some 21) [] Reachable.empty)))

end Yaks

namespace Yaks

variable {H σ β : Type} [DecidableEq H]

/-- A successful `alistGet` witnesses key membership. -/
theorem alistGet_some_mem_keys {κ α : Type} [DecidableEq κ] :
    ∀ {l : List (κ × α)} {k : κ} {v : α}, alistGet l k = some v → k ∈ l.map Prod.fst
  | [], _, _, h => by simp [alistGet] at h
  | (k', v') :: rest, k, v, h => by
    rw [alistGet] at h
    by_cases hk : k' = k
    · simp [hk]
    · rw [if_neg hk] at h
      exact List.mem_cons_of_mem _ (alistGet_some_mem_keys h)

/-- A pair of a key-nodup association list is found by `alistGet`. -/
theorem alistGet_of_mem_nodup {κ α : Type} [DecidableEq κ] :
    ∀ {l : List (κ × α)} {k : κ} {v : α},
      (k, v) ∈ l → (l.map Prod.fst).Nodup → alistGet l k = some v
  | [], _, _, h, _ => by simp at h
  | (k', v') :: rest, k, v, h, hnd => by
    rw [alistGet]
    rcases List.mem_cons.mp h with heq | hmem
    · cases heq
      simp
    · have hnd' : (rest.map Prod.fst).Nodup := by
        simp only [List.map_cons, List.nodup_cons] at hnd
        exact hnd.2
      have hk : ¬k' = k := by
        intro hkk
        subst hkk
        simp only [List.map_cons, List.nodup_cons] at hnd
        exact hnd.1 (List.mem_map.mpr ⟨(k', v), hmem, rfl⟩)
      rw [if_neg hk]
      exact alistGet_of_mem_nodup hmem hnd'

/-- `alistInsert` looks up as expected. -/
theorem alistGet_alistInsert {κ α : Type} [DecidableEq κ] :
    ∀ (l : List (κ × α)) (k q : κ) (v : α),
      alistGet (alistInsert l k v).1 q = if q = k then some v else alistGet l q
  | [], k, q, v => by
    by_cases h : k = q
    · subst h; simp [alistInsert, alistGet]
    · simp [alistInsert, alistGet, h, Ne.symm h]
  | (k', v') :: rest, k, q, v => by
    by_cases hk : k' = k
    · subst hk
      by_cases hq : k' = q
      · subst hq; simp [alistInsert, alistGet]
      · simp [alistInsert, alistGet, hq, Ne.symm hq]
    · have ih := alistGet_alistInsert rest k q v
      by_cases hq : k' = q
      · subst hq
        simp [alistInsert, alistGet, hk, Ne.symm hk]
      · simp [alistInsert, alistGet, hk, hq, ih]

/-- The keys after `alistInsert`: unchanged on replacement, the new key
appended when fresh. -/
theorem alistInsert_keys {κ α : Type} [DecidableEq κ] :
    ∀ (l : List (κ × α)) (k : κ) (v : α),
      ((alistInsert l k v).1).map Prod.fst
        = if k ∈ l.map Prod.fst then l.map Prod.fst else l.map Prod.fst ++ [k]
  | [], k, v => by simp [alistInsert]
  | (k', v') :: rest, k, v => by
    by_cases hk : k' = k
    · subst hk; simp [alistInsert]
    · have ih := alistInsert_keys rest k v
      have hk' : ¬k = k' := Ne.symm hk
      by_cases hm : k ∈ rest.map Prod.fst
      · simp [alistInsert, hk, ih, hm, hk']
      · simp [alistInsert, hk, ih, hm, hk']

/-- `alistInsert` preserves key nodup-ness. -/
theorem alistInsert_keys_nodup {κ α : Type} [DecidableEq κ]
    (l : List (κ × α)) (k : κ) (v : α) (h : (l.map Prod.fst).Nodup) :
    (((alistInsert l k v).1).map Prod.fst).Nodup := by
  rw [alistInsert_keys]
  by_cases hm : k ∈ l.map Prod.fst
  · simpa [hm] using h
  · simp [hm, List.nodup_append, h]

/-- An invalid `checkDeps` verdict exhibits an unresolvable dependency whose
debug rendering is the reported string. -/
theorem checkDeps_invalid (dbg : H → String) (handles : List (H × SystemIndex))
    (sorted : List SystemIndex) :
    ∀ (ds : List H) (str : String), checkDeps dbg handles sorted ds = DepCheck.invalid str →
      ∃ d ∈ ds, alistGet handles d = none ∧ str = dbg d
  | [], str, h => by simp [checkDeps] at h
  | d :: rest, str, h => by
    rw [checkDeps] at h
    cases hg : alistGet handles d with
    | none =>
      rw [hg] at h; dsimp only at h
      refine ⟨d, List.mem_cons_self d rest, hg, ?_⟩
      injection h with h'
      exact h'.symm
    | some j =>
      rw [hg] at h; dsimp only at h
      by_cases hj : j ∈ sorted
      · rw [if_pos hj] at h
        obtain ⟨d', hd', hn, hs⟩ := checkDeps_invalid dbg handles sorted rest str h
        exact ⟨d', List.mem_cons_of_mem _ hd', hn, hs⟩
      · rw [if_neg hj] at h
        exact absurd h (by simp)

/-- An unsatisfied `checkDeps` verdict exhibits a dependency resolving to a
not yet placed index. -/
theorem checkDeps_unsat (dbg : H → String) (handles : List (H × SystemIndex))
    (sorted : List SystemIndex) :
    ∀ (ds : List H), checkDeps dbg handles sorted ds = DepCheck.unsatisfied →
      ∃ d ∈ ds, ∃ j, alistGet handles d = some j ∧ j ∉ sorted
  | [], h => by simp [checkDeps] at h
  | d :: rest, h => by
    rw [checkDeps] at h
    cases hg : alistGet handles d with
    | none =>
      rw [hg] at h; dsimp only at h
      exact absurd h (by simp)
    | some j =>
      rw [hg] at h; dsimp only at h
      by_cases hj : j ∈ sorted
      · rw [if_pos hj] at h
        obtain ⟨d', hd', j', hg', hj'⟩ := checkDeps_unsat dbg handles sorted rest h
        exact ⟨d', List.mem_cons_of_mem _ hd', j', hg', hj'⟩
      · rw [if_neg hj] at h
        exact ⟨d, List.mem_cons_self d rest, j, hg, hj⟩

/-- A placed scan exhibits an unplaced registry entry. -/
theorem scanPassGo_placed (dbg : H → String) (handles : List (H × SystemIndex))
    (sorted : List SystemIndex) :
    ∀ (l : List (SystemIndex × SystemContainer H σ)) (i : SystemIndex),
      scanPassGo dbg handles sorted l = ScanResult.placed i →
      ∃ c, (i, c) ∈ l ∧ i ∉ sorted
  | [], i, h => by simp [scanPassGo] at h
  | (j, c) :: rest, i, h => by
    rw [scanPassGo] at h
    by_cases hj : j ∈ sorted
    · rw [if_pos hj] at h
      obtain ⟨c', hm, hns⟩ := scanPassGo_placed dbg handles sorted rest i h
      exact ⟨c', List.mem_cons_of_mem _ hm, hns⟩
    · rw [if_neg hj] at h
      cases hc : checkDeps dbg handles sorted c.dependencies with
      | invalid s => rw [hc] at h; exact absurd h (by simp)
      | unsatisfied =>
        rw [hc] at h; dsimp only at h
        obtain ⟨c', hm, hns⟩ := scanPassGo_placed dbg handles sorted rest i h
        exact ⟨c', List.mem_cons_of_mem _ hm, hns⟩
      | satisfied =>
        rw [hc] at h; dsimp only at h
        injection h with h'
        subst h'
        exact ⟨c, List.mem_cons_self _ _, hj⟩

/-- An invalid scan exhibits an unplaced candidate with an invalid
dependency walk. -/
theorem scanPassGo_invalid (dbg : H → String) (handles : List (H × SystemIndex))
    (sorted : List SystemIndex) :
    ∀ (l : List (SystemIndex × SystemContainer H σ)) (str : String),
      scanPassGo dbg handles sorted l = ScanResult.invalid str →
      ∃ p ∈ l, p.1 ∉ sorted ∧
        checkDeps dbg handles sorted p.2.dependencies = DepCheck.invalid str
  | [], str, h => by simp [scanPassGo] at h
  | (j, c) :: rest, str, h => by
    rw [scanPassGo] at h
    by_cases hj : j ∈ sorted
    · rw [if_pos hj] at h
      obtain ⟨p, hm, hns, hc⟩ := scanPassGo_invalid dbg handles sorted rest str h
      exact ⟨p, List.mem_cons_of_mem _ hm, hns, hc⟩
    · rw [if_neg hj] at h
      cases hc : checkDeps dbg handles sorted c.dependencies with
      | invalid s =>
        rw [hc] at h; dsimp only at h
        injection h with h'
        subst h'
        exact ⟨(j, c), List.mem_cons_self _ _, hj, hc⟩
      | unsatisfied =>
        rw [hc] at h; dsimp only at h
        obtain ⟨p, hm, hns, hc'⟩ := scanPassGo_invalid dbg handles sorted rest str h
        exact ⟨p, List.mem_cons_of_mem _ hm, hns, hc'⟩
      | satisfied => rw [hc] at h; exact absurd h (by simp)

/-- A stuck scan leaves every unplaced candidate unsatisfied. -/
theorem scanPassGo_stuck (dbg : H → String) (handles : List (H × SystemIndex))
    (sorted : List SystemIndex) :
    ∀ (l : List (SystemIndex × SystemContainer H σ)),
      scanPassGo dbg handles sorted l = ScanResult.stuck →
      ∀ p ∈ l, p.1 ∉ sorted →
        checkDeps dbg handles sorted p.2.dependencies = DepCheck.unsatisfied
  | [], _, p, hp, _ => by simp at hp
  | (j, c) :: rest, h, p, hp, hns => by
    rw [scanPassGo] at h
    rcases List.mem_cons.mp hp with heq | hmem
    · subst heq
      rw [if_neg hns] at h
      cases hc : checkDeps dbg handles sorted c.dependencies with
      | invalid s => rw [hc] at h; exact absurd h (by simp)
      | unsatisfied => rfl
      | satisfied => rw [hc] at h; exact absurd h (by simp)
    · by_cases hj : j ∈ sorted
      · rw [if_pos hj] at h
        exact scanPassGo_stuck dbg handles sorted rest h p hmem hns
      · rw [if_neg hj] at h
        cases hc : checkDeps dbg handles sorted c.dependencies with
        | invalid s => rw [hc] at h; exact absurd h (by simp)
        | unsatisfied =>
          rw [hc] at h; dsimp only at h
          exact scanPassGo_stuck dbg handles sorted rest h p hmem hns
        | satisfied => rw [hc] at h; exact absurd h (by simp)

/-- A failing `sortLoop` run returns the placement state of the failing pass:
it is nodup, drawn from the registry keys, incomplete, and its scan verdict
matches the reported error. -/
theorem sortLoop_error (dbg : H → String) (systems : List (SystemIndex × SystemContainer H σ))
    (handles : List (H × SystemIndex)) :
    ∀ (fuel : Nat) (s0 S : List SystemIndex) (e : CantInsertSystem),
      s0.Nodup → (∀ i ∈ s0, i ∈ systems.map Prod.fst) →
      sortLoop dbg systems handles fuel s0 = (S, some e) →
      S.Nodup ∧ (∀ i ∈ S, i ∈ systems.map Prod.fst) ∧ S.length ≠ systems.length ∧
        ((∃ str, e = CantInsertSystem.DependencyNotFound str ∧
            scanPass dbg systems handles S = ScanResult.invalid str) ∨
         (e = CantInsertSystem.CyclicDependency ∧
            scanPass dbg systems handles S = ScanResult.stuck))
  | 0, s0, S, e, _, _, h => by simp [sortLoop] at h
  | fuel + 1, s0, S, e, hnd, hsub, h => by
    rw [sortLoop] at h
    by_cases hlen : s0.length = systems.length
    · rw [if_pos hlen] at h
      exact absurd h (by simp)
    · rw [if_neg hlen] at h
      cases hscan : scanPass dbg systems handles s0 with
      | placed i =>
        rw [hscan] at h; dsimp only at h
        obtain ⟨c, hm, hni⟩ := scanPassGo_placed dbg handles s0 systems i hscan
        have hik : i ∈ systems.map Prod.fst := List.mem_map.mpr ⟨(i, c), hm, rfl⟩
        refine sortLoop_error dbg systems handles fuel (s0 ++ [i]) S e ?_ ?_ h
        · simp [List.nodup_append, hnd, hni]
        · intro x hx
          rcases List.mem_append.mp hx with hx | hx
          · exact hsub x hx
          · simp at hx; subst hx; exact hik
      | invalid s =>
        rw [hscan] at h; dsimp only at h
        injection h with h1 h2
        injection h2 with h2
        subst h1; subst h2
        exact ⟨hnd, hsub, hlen, Or.inl ⟨s, rfl, hscan⟩⟩
      | stuck =>
        rw [hscan] at h; dsimp only at h
        injection h with h1 h2
        injection h2 with h2
        subst h1; subst h2
        exact ⟨hnd, hsub, hlen, Or.inr ⟨rfl, hscan⟩⟩

end Yaks

namespace Yaks

variable {H σ β : Type} [DecidableEq H]

/-- The dependency-graph edge relation of the spec: `edgeRel E j i` holds when
the system at index `i` has a dependency handle resolving to index `j`
(edge `j → i`: `j` must run before `i`). -/
def edgeRel (E : Executor H σ β) (j i : SystemIndex) : Prop :=
  ∃ c, alistGet E.systems i = some c ∧
    ∃ d ∈ c.dependencies, resolve_handle E d = some j

/-- `new_system_index` leaves `system_handles` alone. -/
theorem new_system_index_handles (E : Executor H σ β) :
    (new_system_index E).2.system_handles = E.system_handles := by
  unfold new_system_index
  cases E.free_indices <;> rfl

/-- `new_system_index` leaves `systems` alone. -/
theorem new_system_index_systems (E : Executor H σ β) :
    (new_system_index E).2.systems = E.systems := by
  unfold new_system_index
  cases E.free_indices <;> rfl

/-- `insertAlloc` leaves `systems` alone. -/
theorem insertAlloc_systems (E : Executor H σ β) (hd : Option H) :
    (insertAlloc E hd).2.systems = E.systems := by
  cases hd with
  | none => exact new_system_index_systems E
  | some x =>
    cases hx : alistGet E.system_handles x with
    | some i => simp [insertAlloc, hx]
    | none => simp [insertAlloc, hx, new_system_index_systems]

/-- The installed registry: the new container sits at the allocated index on
top of the unchanged previous map. -/
theorem insertInstall_systems (bo : σ → β) (E : Executor H σ β) (s : σ) (hd : Option H)
    (deps : List H) :
    (insertInstall bo E s hd deps).1.systems
      = (alistInsert E.systems (insertAlloc E hd).1 (SystemContainer.mk s deps true)).1 := by
  simp [insertInstall, insertAlloc_systems]

/-- The installed handle map is that of the allocation step. -/
theorem insertInstall_handles (bo : σ → β) (E : Executor H σ β) (s : σ) (hd : Option H)
    (deps : List H) :
    (insertInstall bo E s hd deps).1.system_handles = (insertAlloc E hd).2.system_handles := rfl

/-- Installation preserves nodup-ness of the registry keys. -/
theorem insertInstall_keys_nodup (bo : σ → β) (E : Executor H σ β) (s : σ) (hd : Option H)
    (deps : List H) (hnd : (E.systems.map Prod.fst).Nodup) :
    ((insertInstall bo E s hd deps).1.systems.map Prod.fst).Nodup := by
  rw [insertInstall_systems]
  exact alistInsert_keys_nodup _ _ _ hnd

/-- Installation preserves handle coherence: every binding of the installed
handle map points at a present container (the allocated index now holds the
new container; all other bindings are carried over). -/
theorem insertInstall_coherent (bo : σ → β) (E : Executor H σ β) (s : σ) (hd : Option H)
    (deps : List H)
    (hco : ∀ h i, alistGet E.system_handles h = some i →
      (alistGet E.systems i).isSome = true) :
    ∀ h i, alistGet (insertInstall bo E s hd deps).1.system_handles h = some i →
      (alistGet (insertInstall bo E s hd deps).1.systems i).isSome = true := by
  intro h i hg
  rw [insertInstall_handles] at hg
  rw [insertInstall_systems, alistGet_alistInsert]
  by_cases hin : i = (insertAlloc E hd).1
  · simp [hin]
  · rw [if_neg hin]
    -- the binding must be one carried over from `E`
    have hold : alistGet E.system_handles h = some i := by
      cases hd with
      | none =>
        rwa [show (insertAlloc E none).2.system_handles = E.system_handles from
          new_system_index_handles E] at hg
      | some x =>
        cases hx : alistGet E.system_handles x with
        | some i0 => rwa [show (insertAlloc E (some x)).2.system_handles = E.system_handles
            by simp [insertAlloc, hx]] at hg
        | none =>
          have hh : (insertAlloc E (some x)).2.system_handles
              = (alistInsert E.system_handles x (insertAlloc E (some x)).1).1 := by
            simp [insertAlloc, hx, new_system_index_handles]
          rw [hh, alistGet_alistInsert] at hg
          by_cases hhx : h = x
          · rw [if_pos hhx] at hg
            injection hg with hg'
            exact absurd hg'.symm hin
          · rwa [if_neg hhx] at hg
    exact hco h i hold

/-- Iterates of a set-preserving function stay in the set. -/
theorem iterate_mem_of_step {f : Nat → Nat} {U : Nat → Prop}
    (hstep : ∀ x, U x → U (f x)) : ∀ (n : Nat) (x : Nat), U x → U (f^[n] x)
  | 0, _, hx => hx
  | n + 1, x, hx => by
    rw [Function.iterate_succ_apply']
    exact hstep _ (iterate_mem_of_step hstep n x hx)

/-- A positive-length iteration loop of an edge-producing function gives a
transitive-closure path back to the start. -/
theorem transGen_of_iterate_loop {f : Nat → Nat} {r : Nat → Nat → Prop} {U : Nat → Prop}
    (hstep : ∀ x, U x → U (f x) ∧ r (f x) x) :
    ∀ (m : Nat) (x : Nat), U x → Relation.TransGen r (f^[m + 1] x) x
  | 0, x, hx => by
    rw [Function.iterate_one]
    exact Relation.TransGen.single (hstep x hx).2
  | m + 1, x, hx => by
    rw [Function.iterate_succ_apply']
    have hm : U (f^[m + 1] x) :=
      iterate_mem_of_step (fun y hy => (hstep y hy).1) (m + 1) x hx
    exact Relation.TransGen.head (hstep _ hm).2 (transGen_of_iterate_loop hstep m x hx)

/-- A stuck pass on a nodup, incomplete placement over a coherent registry
forces a dependency cycle: every unplaced index has an unplaced resolvable
predecessor, and the finite registry pigeonholes the predecessor chain into a
loop. -/
theorem stuck_scan_cycle (dbg : H → String) (E : Executor H σ β) (S : List SystemIndex)
    (hnd : (E.systems.map Prod.fst).Nodup)
    (hco : ∀ h i, alistGet E.system_handles h = some i →
      (alistGet E.systems i).isSome = true)
    (hSnd : S.Nodup) (hSsub : ∀ i ∈ S, i ∈ E.systems.map Prod.fst)
    (hSlen : S.length ≠ E.systems.length)
    (hstuck : scanPass dbg E.systems E.system_handles S = ScanResult.stuck) :
    ∃ i, Relation.TransGen (edgeRel E) i i := by
  classical
  set keys := E.systems.map Prod.fst with hkeys
  have hkl : keys.length = E.systems.length := List.length_map _ _
  -- every unplaced index has an unplaced predecessor through an edge
  have h1 : ∀ i, i ∈ keys → i ∉ S → ∃ j, (j ∈ keys ∧ j ∉ S) ∧ edgeRel E j i := by
    intro i hik hiS
    obtain ⟨p, hm, hfst⟩ := List.mem_map.mp hik
    obtain ⟨i', c⟩ := p
    cases hfst
    have hcd := scanPassGo_stuck dbg E.system_handles S E.systems hstuck (i', c) hm hiS
    obtain ⟨d, hd, j, hgj, hjS⟩ := checkDeps_unsat dbg E.system_handles S c.dependencies hcd
    have hjk : j ∈ keys := by
      obtain ⟨cj, hcj⟩ := Option.isSome_iff_exists.mp (hco d j hgj)
      exact alistGet_some_mem_keys hcj
    exact ⟨j, ⟨hjk, hjS⟩, c, alistGet_of_mem_nodup hm hnd, d, hd, hgj⟩
  -- the unplaced set is nonempty
  have hu0 : ∃ x, x ∈ keys ∧ x ∉ S := by
    by_contra hc
    push_neg at hc
    have hsub2 : keys ⊆ S := fun x hx => hc x hx
    have hknd : keys.Nodup := by
      have := hnd
      rwa [hkeys]
    have h2 : keys.length ≤ S.length := (hknd.subperm hsub2).length_le
    have h3 : S.length ≤ keys.length := (hSnd.subperm hSsub).length_le
    omega
  obtain ⟨u0, hu0k, hu0S⟩ := hu0
  -- totalise the predecessor choice
  have htot : ∀ x : Nat, ∃ j : Nat,
      (x ∈ keys ∧ x ∉ S) → ((j ∈ keys ∧ j ∉ S) ∧ edgeRel E j x) := by
    intro x
    by_cases hx : x ∈ keys ∧ x ∉ S
    · obtain ⟨j, hj⟩ := h1 x hx.1 hx.2
      exact ⟨j, fun _ => hj⟩
    · exact ⟨0, fun hcx => absurd hcx hx⟩
  choose f hf using htot
  have hstep : ∀ x, (x ∈ keys ∧ x ∉ S) → ((f x ∈ keys ∧ f x ∉ S) ∧ edgeRel E (f x) x) := hf
  have hpres : ∀ x, (x ∈ keys ∧ x ∉ S) → (f x ∈ keys ∧ f x ∉ S) :=
    fun x hx => (hstep x hx).1
  -- pigeonhole the iterates
  have hmaps : ∀ n ∈ Finset.range (keys.length + 1),
      f^[n] u0 ∈ keys.toFinset.filter (fun x => x ∉ S) := by
    intro n _
    have := iterate_mem_of_step hpres n u0 ⟨hu0k, hu0S⟩
    simp only [Finset.mem_filter, List.mem_toFinset]
    exact ⟨this.1, by simpa using this.2⟩
  have hcard : (keys.toFinset.filter (fun x => x ∉ S)).card
      < (Finset.range (keys.length + 1)).card := by
    have h4 : (keys.toFinset.filter (fun x => x ∉ S)).card ≤ keys.toFinset.card :=
      Finset.card_filter_le _ _
    have h5 : keys.toFinset.card ≤ keys.length := keys.toFinset_card_le
    rw [Finset.card_range]
    omega
  obtain ⟨a, _, b, _, hab, habeq⟩ :=
    Finset.exists_ne_map_eq_of_card_lt_of_maps_to hcard hmaps
  obtain ⟨a, b, hlt, heqs⟩ : ∃ a b : Nat, a < b ∧ f^[a] u0 = f^[b] u0 := by
    rcases lt_or_gt_of_ne hab with hl | hl
    · exact ⟨a, b, hl, habeq⟩
    · exact ⟨b, a, hl, habeq.symm⟩
  have hUy : f^[a] u0 ∈ keys ∧ f^[a] u0 ∉ S :=
    iterate_mem_of_step hpres a u0 ⟨hu0k, hu0S⟩
  have hcyc : f^[(b - a - 1) + 1] (f^[a] u0) = f^[a] u0 := by
    have hiter : f^[b - a] (f^[a] u0) = f^[b] u0 := by
      rw [← Function.iterate_add_apply]
      congr 1
      omega
    have hba : (b - a - 1) + 1 = b - a := by omega
    rw [hba, hiter]
    exact heqs.symm
  have := transGen_of_iterate_loop hstep (b - a - 1) (f^[a] u0) hUy
  rw [hcyc] at this
  exact ⟨f^[a] u0, this⟩

/-- An erroring `insert_inner` got its error from the sort loop run on the
installed state, started from an empty placement. -/
theorem insert_inner_error_sortLoop (bo : σ → β) (dbg : H → String) (E : Executor H σ β)
    (s : σ) (hd : Option H) (deps : List H) (err : CantInsertSystem)
    (h : (insert_inner bo dbg E s hd deps).2 = Except.error err) :
    ∃ S, sortLoop dbg (insertInstall bo E s hd deps).1.systems
        (insertInstall bo E s hd deps).1.system_handles
        ((insertInstall bo E s hd deps).1.systems.length + 1) [] = (S, some err) := by
  unfold insert_inner at h
  dsimp only at h
  split at h
  · simp at h
  · split at h
    · simp at h
    · rename_i sorted err0 heq
      dsimp only at h
      injection h with h'
      subst h'
      exact ⟨sorted, heq⟩

end Yaks

namespace Yaks

variable {H σ β : Type} [DecidableEq H]

/-- Claim C6 (amended): on a key-nodup, handle-coherent executor, an
insertion that fails reports `DependencyNotFound(s)` only when some system of
the installed registry has a dependency handle that fails to resolve, `s`
being its debug rendering; and it reports `CyclicDependency` only when the
dependency graph of the installed registry, restricted to resolvable
dependencies, has a cycle.  The original claim's `exactly when` for
`DependencyNotFound` fails (see the counterexample): a dangling handle
shadowed by an earlier resolvable-but-unplaced dependency of its candidate
is never examined and the insertion reports `CyclicDependency` instead. -/
theorem c6_error_classification (bo : σ → β) (dbg : H → String) (E : Executor H σ β)
    (s : σ) (hd : Option H) (deps : List H) (err : CantInsertSystem)
    (hnd : (E.systems.map Prod.fst).Nodup)
    (hco : ∀ h i, alistGet E.system_handles h = some i →
      (alistGet E.systems i).isSome = true)
    (herr : (insert_inner bo dbg E s hd deps).2 = Except.error err) :
    (∀ str, err = CantInsertSystem.DependencyNotFound str →
      ∃ p ∈ (insertInstall bo E s hd deps).1.systems,
        ∃ d ∈ p.2.dependencies,
          resolve_handle (insertInstall bo E s hd deps).1 d = none ∧ str = dbg d) ∧
    (err = CantInsertSystem.CyclicDependency →
      ∃ i, Relation.TransGen (edgeRel (insertInstall bo E s hd deps).1) i i) := by
  obtain ⟨S, hSL⟩ := insert_inner_error_sortLoop bo dbg E s hd deps err herr
  have hInd : ((insertInstall bo E s hd deps).1.systems.map Prod.fst).Nodup :=
    insertInstall_keys_nodup bo E s hd deps hnd
  have hIco := insertInstall_coherent bo E s hd deps hco
  obtain ⟨hSnd, hSsub, hSlen, hcase⟩ :=
    sortLoop_error dbg (insertInstall bo E s hd deps).1.systems
      (insertInstall bo E s hd deps).1.system_handles
      ((insertInstall bo E s hd deps).1.systems.length + 1) [] S err
      List.nodup_nil (by simp) hSL
  constructor
  · intro str hstr
    subst hstr
    rcases hcase with ⟨str', heq, hinv⟩ | ⟨heq, _⟩
    · injection heq with h'
      subst h'
      obtain ⟨p, hp, hpn, hcd⟩ :=
        scanPassGo_invalid dbg (insertInstall bo E s hd deps).1.system_handles S
          (insertInstall bo E s hd deps).1.systems str hinv
      obtain ⟨d, hd', hnone, hsd⟩ :=
        checkDeps_invalid dbg (insertInstall bo E s hd deps).1.system_handles S
          p.2.dependencies str hcd
      exact ⟨p, hp, d, hd', hnone, hsd⟩
    · exact absurd heq (by simp)
  · intro hcy
    subst hcy
    rcases hcase with ⟨str', heq, _⟩ | ⟨_, hstuck⟩
    · exact absurd heq (by simp)
    · exact stuck_scan_cycle dbg (insertInstall bo E s hd deps).1 S hInd hIco
        hSnd hSsub
        (by simpa using hSlen) hstuck

/-- The handle bindings of `c6state` all point at present containers. -/
theorem c6state_coherent :
    ∀ (h i : Nat), alistGet c6state.system_handles h = some i →
      (alistGet c6state.systems i).isSome = true := by
  intro h i hg
  have hh : c6state.system_handles = [(1, 0), (2, 1)] := by decide
  rw [hh] at hg
  rw [alistGet] at hg
  by_cases h1 : (1 : Nat) = h
  · rw [if_pos h1] at hg
    injection hg with h'
    subst h'
    decide
  · rw [if_neg h1] at hg
    rw [alistGet] at hg
    by_cases h2 : (2 : Nat) = h
    · rw [if_pos h2] at hg
      injection hg with h'
      subst h'
      decide
    · rw [if_neg h2] at hg
      rw [alistGet] at hg
      exact absurd hg (by simp)

/-- Witness for claim C6's amended theorem at the counterexample input: the
replacement of handle `1` on `c6state` with dependencies `[2, 9]` fails with
`CyclicDependency`, and the theorem produces the promised dependency cycle in
the installed registry. -/
theorem c6_error_classification_witness :
    (∀ str, CantInsertSystem.CyclicDependency = CantInsertSystem.DependencyNotFound str →
      ∃ p ∈ (insertInstall unitBorrows c6state () (some 1) [2, 9]).1.systems,
        ∃ d ∈ p.2.dependencies,
          resolve_handle (insertInstall unitBorrows c6state () (some 1) [2, 9]).1 d = none ∧
            str = natDebug d) ∧
    (CantInsertSystem.CyclicDependency = CantInsertSystem.CyclicDependency →
      ∃ i, Relation.TransGen
        (edgeRel (insertInstall unitBorrows c6state () (some 1) [2, 9]).1) i i) :=
  c6_error_classification unitBorrows natDebug c6state () (some 1) [2, 9]
    CantInsertSystem.CyclicDependency (by decide) c6state_coherent (by decide)

end Yaks

namespace Yaks

variable {H σ β : Type} [DecidableEq H]

/-- The transitive dependency relation between system indices: `DepRel E i j`
says `i` is a (transitive) dependency of `j`, so `i` must run before `j`. -/
def DepRel (E : Executor H σ β) : SystemIndex → SystemIndex → Prop :=
  Relation.TransGen (edgeRel E)

/-- Running the system stored at an index on a state (the body of the `run`
loop for a present container; an absent index leaves the state alone, and
the claims' hypotheses rule that case out). -/
def applySys {S : Type} (E : Executor H (S → S) β) (st : S) (i : SystemIndex) : S :=
  match alistGet E.systems i with
  | some c => c.system st
  | none => st

/-- Modelled from the spec: the parallel dispatch engine of §4.7 (the worker
scope, `System::run_with_scope` and the conflict matrix live outside
src/executor.rs, whose `run_with_scope` is a sequential delegating loop).  A
schedule is an execution order the dispatcher may realise: a permutation of
the active part of `systems_sorted` that keeps every dependent pair
(dependency observance, spec property 6) and every conflicting pair (conflict
soundness, spec property 5) in their sequential relative order. -/
def ValidSchedule {S : Type} (E : Executor H (S → S) β)
    (conflicts : SystemIndex → SystemIndex → Prop) (ys : List SystemIndex) : Prop :=
  ys.Perm (activeList E) ∧
  ∀ i j, (DepRel E i j ∨ conflicts i j) →
    [i, j].Sublist (activeList E) → [i, j].Sublist ys

/-- Decomposition of an ordered pair inside an appended list. -/
theorem pair_sublist_append {ι : Type} (x y : ι) :
    ∀ (l₁ l₂ : List ι), [x, y].Sublist (l₁ ++ l₂) →
      [x, y].Sublist l₁ ∨ (x ∈ l₁ ∧ y ∈ l₂) ∨ [x, y].Sublist l₂
  | [], _, h => Or.inr (Or.inr (by simpa using h))
  | c :: t, l₂, h => by
    rw [List.cons_append] at h
    cases h with
    | cons _ h' =>
      rcases pair_sublist_append x y t l₂ h' with h1 | ⟨h1, h2⟩ | h1
      · exact Or.inl (h1.cons c)
      · exact Or.inr (Or.inl ⟨List.mem_cons_of_mem _ h1, h2⟩)
      · exact Or.inr (Or.inr h1)
    | cons₂ _ h' =>
      have hy : y ∈ t ++ l₂ := List.singleton_sublist.mp h'
      rcases List.mem_append.mp hy with hyt | hyl
      · exact Or.inl (List.Sublist.cons₂ _ (List.singleton_sublist.mpr hyt))
      · exact Or.inr (Or.inl ⟨List.mem_cons_self _ _, hyl⟩)

/-- Decomposition of an ordered pair inside a cons. -/
theorem pair_sublist_cons {ι : Type} (x y a : ι) (l : List ι)
    (h : [x, y].Sublist (a :: l)) : (x = a ∧ y ∈ l) ∨ [x, y].Sublist l := by
  cases h with
  | cons _ h' => exact Or.inr h'
  | cons₂ _ h' => exact Or.inl ⟨rfl, List.singleton_sublist.mp h'⟩

/-- Construction of an ordered pair across an append. -/
theorem pair_sublist_of_mem_mem {ι : Type} {x y : ι} {l₁ l₂ : List ι}
    (hx : x ∈ l₁) (hy : y ∈ l₂) : [x, y].Sublist (l₁ ++ l₂) := by
  have h1 : [x].Sublist l₁ := List.singleton_sublist.mpr hx
  have h2 : [y].Sublist l₂ := List.singleton_sublist.mpr hy
  simpa using h1.append h2

/-- Dropping a middle element neither side of the pair mentions. -/
theorem pair_sublist_mid_erase {ι : Type} {x y a : ι} {u v : List ι}
    (h : [x, y].Sublist (u ++ a :: v)) (hx : x ≠ a) (hy : y ≠ a) :
    [x, y].Sublist (u ++ v) := by
  rcases pair_sublist_append x y u (a :: v) h with h1 | ⟨h1, h2⟩ | h1
  · exact h1.trans (List.sublist_append_left u v)
  · rcases List.mem_cons.mp h2 with heq | h2'
    · exact absurd heq hy
    · exact pair_sublist_of_mem_mem h1 h2'
  · rcases pair_sublist_cons x y a v h1 with ⟨heq, _⟩ | h2
    · exact absurd heq hx
    · exact h2.trans (List.sublist_append_right u v)

/-- Bubbling a commuting element to the front of a fold. -/
theorem foldl_bubble {α ι : Type} (f : α → ι → α) :
    ∀ (u : List ι) (a : ι) (v : List ι) (st : α),
      (∀ e ∈ u, ∀ s, f (f s e) a = f (f s a) e) →
      (u ++ a :: v).foldl f st = (u ++ v).foldl f (f st a)
  | [], _, _, _, _ => rfl
  | e :: u, a, v, st, hcomm => by
    calc ((e :: u) ++ a :: v).foldl f st
        = (u ++ a :: v).foldl f (f st e) := rfl
      _ = (u ++ v).foldl f (f (f st e) a) :=
          foldl_bubble f u a v (f st e) (fun x hx s => hcomm x (List.mem_cons_of_mem _ hx) s)
      _ = (u ++ v).foldl f (f (f st a) e) := by
          rw [hcomm e (List.mem_cons_self e u) st]
      _ = ((e :: u) ++ v).foldl f (f st a) := rfl

/-- Folding over two linear extensions of the same order-respecting lists:
if `ys` is a permutation of the nodup list `xs`, both lists lay out every
`R`-related pair in the same relative order, and `f` commutes on unrelated
pairs, then the folds agree.  This is the heart of the sequential/parallel
outcome equivalence. -/
theorem foldl_eq_of_perm_of_commute {α ι : Type} (f : α → ι → α) (R : ι → ι → Prop) :
    ∀ (ys xs : List ι), xs.Nodup → ys.Perm xs →
      (∀ a b, R a b → a ∈ xs → b ∈ xs → [a, b].Sublist xs) →
      (∀ a b, R a b → a ∈ ys → b ∈ ys → [a, b].Sublist ys) →
      (∀ a b, a ∈ xs → b ∈ xs → a ≠ b → ¬R a b → ¬R b a →
        ∀ st, f (f st a) b = f (f st b) a) →
      ∀ st, ys.foldl f st = xs.foldl f st
  | [], xs, _, hperm, _, _, _, st => by
    have hx : xs = [] := hperm.symm.eq_nil
    subst hx
    rfl
  | a :: ys', xs, hnd, hperm, hoxs, hoys, hcomm, st => by
    have hax : a ∈ xs := hperm.subset (List.mem_cons_self a ys')
    obtain ⟨u, v, rfl⟩ := List.append_of_mem hax
    have hmid : (a :: (u ++ v)).Nodup := List.nodup_middle.mp hnd
    have hanuv : a ∉ u ++ v := (List.nodup_cons.mp hmid).1
    have hnduv : (u ++ v).Nodup := (List.nodup_cons.mp hmid).2
    have hanu : a ∉ u := fun h => hanuv (List.mem_append_left _ h)
    have hanv : a ∉ v := fun h => hanuv (List.mem_append_right _ h)
    have hdisj : List.Disjoint u (a :: v) := (List.nodup_append.mp hnd).2.2
    have hysnd : (a :: ys').Nodup := hperm.nodup_iff.mpr hnd
    have hays' : a ∉ ys' := (List.nodup_cons.mp hysnd).1
    have hpermuv : ys'.Perm (u ++ v) :=
      (hperm.trans (List.perm_middle)).cons_inv
    have hcommu : ∀ e ∈ u, ∀ s, f (f s e) a = f (f s a) e := by
      intro e heu s'
      have hea : e ≠ a := fun h => hanu (h ▸ heu)
      have hexs : e ∈ u ++ a :: v := List.mem_append_left _ heu
      have hRae : ¬R a e := by
        intro hR
        have hsub := hoxs a e hR hax hexs
        rcases pair_sublist_append a e u (a :: v) hsub with h1 | ⟨h1, h2⟩ | h1
        · exact hanu (h1.subset (List.mem_cons_self _ _))
        · exact hanu h1
        · rcases pair_sublist_cons a e a v h1 with ⟨_, h2⟩ | h2
          · exact hdisj heu (List.mem_cons_of_mem _ h2)
          · exact hanv (h2.subset (List.mem_cons_self _ _))
      have hRea : ¬R e a := by
        intro hR
        have hsub := hoys e a hR (hperm.symm.subset hexs) (List.mem_cons_self _ _)
        rcases pair_sublist_cons e a a ys' hsub with ⟨heq, _⟩ | h2
        · exact hea heq
        · exact hays' (h2.subset (List.mem_cons_of_mem _ (List.mem_cons_self _ _)))
      exact hcomm e a hexs hax hea hRea hRae s'
    have hmemlift : ∀ x, x ∈ u ++ v → x ∈ u ++ a :: v := by
      intro x hx
      rcases List.mem_append.mp hx with h | h
      · exact List.mem_append_left _ h
      · exact List.mem_append_right _ (List.mem_cons_of_mem _ h)
    have hoxs' : ∀ x y, R x y → x ∈ u ++ v → y ∈ u ++ v → [x, y].Sublist (u ++ v) := by
      intro x y hR hx hy
      have hxa : x ≠ a := fun h => hanuv (h ▸ hx)
      have hya : y ≠ a := fun h => hanuv (h ▸ hy)
      exact pair_sublist_mid_erase (hoxs x y hR (hmemlift x hx) (hmemlift y hy)) hxa hya
    have hoys' : ∀ x y, R x y → x ∈ ys' → y ∈ ys' → [x, y].Sublist ys' := by
      intro x y hR hx hy
      have hsub := hoys x y hR (List.mem_cons_of_mem _ hx) (List.mem_cons_of_mem _ hy)
      rcases pair_sublist_cons x y a ys' hsub with ⟨heq, _⟩ | h2
      · exact absurd (heq ▸ hx) hays'
      · exact h2
    have hcomm' : ∀ x y, x ∈ u ++ v → y ∈ u ++ v → x ≠ y → ¬R x y → ¬R y x →
        ∀ s, f (f s x) y = f (f s y) x := by
      intro x y hx hy hne h1 h2 s
      exact hcomm x y (hmemlift x hx) (hmemlift y hy) hne h1 h2 s
    calc (a :: ys').foldl f st
        = ys'.foldl f (f st a) := rfl
      _ = (u ++ v).foldl f (f st a) :=
          foldl_eq_of_perm_of_commute f R ys' (u ++ v) hnduv hpermuv hoxs' hoys' hcomm' (f st a)
      _ = (u ++ a :: v).foldl f st := (foldl_bubble f u a v st hcommu).symm

end Yaks

namespace Yaks

variable {H σ β : Type} [DecidableEq H]

/-- Claim C8: for an executor in which every pair of active systems without a
(transitive) dependency relation is deemed non-conflicting by the conflict
matrix, and whose systems commute across every such pair, the sequential and
parallel executors are outcome-equivalent.  The `System` payload is modelled
from the spec as a complete state transformer `S → S` (§5: the scope joins
all spawned work before `run_with_scope` returns, so a system's observable
effect is the same in both modes; `System::run`/`run_with_scope` are not
under src/): `run_with_scope` in src/executor.rs is then literally the same
loop as `run` and produces the same trace, and every order the spec's §4.7
dispatcher may realise (`ValidSchedule`) folds the commuting transformers to
the same final state as the sequential `systems_sorted` order. -/
theorem c8_sequential_parallel_equivalence {S : Type} (E : Executor H (S → S) β)
    (conflicts : SystemIndex → SystemIndex → Prop) (ys : List SystemIndex) (st : S)
    (hlive : ∀ i ∈ E.systems_sorted, (alistGet E.systems i).isSome = true)
    (hnodup : (activeList E).Nodup)
    (htopo : ∀ i j, DepRel E i j → i ∈ activeList E → j ∈ activeList E →
      [i, j].Sublist (activeList E))
    (hconf : ∀ i j, i ∈ activeList E → j ∈ activeList E →
      ¬DepRel E i j → ¬DepRel E j i → ¬conflicts i j)
    (hcomm : ∀ i j, i ∈ activeList E → j ∈ activeList E → i ≠ j →
      ¬DepRel E i j → ¬DepRel E j i →
      ∀ s, applySys E (applySys E s i) j = applySys E (applySys E s j) i)
    (hys : ValidSchedule E conflicts ys) :
    run_with_scope E = run E ∧
    run E = Except.ok (activeList E) ∧
    ys.foldl (applySys E) st = (activeList E).foldl (applySys E) st := by
  refine ⟨rfl, ?_, ?_⟩
  · have := runTraceGo_ok E E.systems_sorted [] hlive
    simpa [activeList] using this
  · refine foldl_eq_of_perm_of_commute (applySys E) (DepRel E) ys (activeList E)
      hnodup hys.1 htopo ?_ ?_ st
    · intro a b hR ha hb
      exact hys.2 a b (Or.inl hR)
        (htopo a b hR (hys.1.subset ha) (hys.1.subset hb))
    · intro a b ha hb hne h1 h2 s
      exact hcomm a b ha hb hne h1 h2 s

/-- A concrete executor of two independent, commuting systems over a `Nat`
state: system `0` adds one, system `1` adds two. -/
def c8state : Executor Nat (Nat → Nat) Unit :=
  ⟨[(0, SystemContainer.mk (fun n => n + 1) [] true),
    (1, SystemContainer.mk (fun n => n + 2) [] true)],
   [(1, 0), (2, 1)], [], [0, 1], [(0, ()), (1, ())]⟩

/-- `c8state` has no dependency edges at all. -/
theorem c8state_no_edge : ∀ a b : SystemIndex, ¬edgeRel c8state a b := by
  rintro a b ⟨c, hc, d, hd, _⟩
  have hsys : c8state.systems
      = [(0, SystemContainer.mk (fun n => n + 1) [] true),
         (1, SystemContainer.mk (fun n => n + 2) [] true)] := rfl
  rw [hsys] at hc
  rw [alistGet] at hc
  by_cases h0 : (0 : Nat) = b
  · rw [if_pos h0] at hc
    injection hc with h'
    subst h'
    simp at hd
  · rw [if_neg h0] at hc
    rw [alistGet] at hc
    by_cases h1 : (1 : Nat) = b
    · rw [if_pos h1] at hc
      injection hc with h'
      subst h'
      simp at hd
    · rw [if_neg h1] at hc
      rw [alistGet] at hc
      exact absurd hc (by simp)

/-- `c8state` has no transitive dependencies either. -/
theorem c8state_no_dep : ∀ a b : SystemIndex, ¬DepRel c8state a b := by
  intro a b h
  cases h with
  | single h' => exact c8state_no_edge _ _ h'
  | tail _ h' => exact c8state_no_edge _ _ h'

/-- Witness for claim C8 on `c8state` with the schedule `[1, 0]` (the reverse
of the sequential order), the all-clear conflict matrix, and initial state
`5`: all hypotheses are discharged concretely and the conclusion follows from
the theorem. -/
theorem c8_sequential_parallel_equivalence_witness :
    run_with_scope c8state = run c8state ∧
    run c8state = Except.ok (activeList c8state) ∧
    List.foldl (applySys c8state) 5 [1, 0]
      = List.foldl (applySys c8state) 5 (activeList c8state) := by
  have hal : activeList c8state = [0, 1] := rfl
  have ha0 : ∀ s : Nat, applySys c8state s 0 = s + 1 := fun _ => rfl
  have ha1 : ∀ s : Nat, applySys c8state s 1 = s + 2 := fun _ => rfl
  refine c8_sequential_parallel_equivalence c8state (fun _ _ => False) [1, 0] 5
    ?_ ?_ ?_ ?_ ?_ ?_
  · intro i hi
    have : i = 0 ∨ i = 1 := by
      have hs : c8state.systems_sorted = [0, 1] := rfl
      rw [hs] at hi
      simpa using hi
    rcases this with rfl | rfl <;> rfl
  · rw [hal]
    decide
  · intro i j hR _ _
    exact absurd hR (c8state_no_dep i j)
  · intro i j _ _ _ _ hf
    exact hf
  · intro i j hi hj hne _ _ s
    rw [hal] at hi hj
    have hi2 : i = 0 ∨ i = 1 := by simpa using hi
    have hj2 : j = 0 ∨ j = 1 := by simpa using hj
    rcases hi2 with rfl | rfl <;> rcases hj2 with rfl | rfl <;>
      simp [ha0, ha1]
  · constructor
    · rw [hal]
      decide
    · intro i j hij _
      rcases hij with hR | hf
      · exact absurd hR (c8state_no_dep i j)
      · exact hf.elim

end Yaks
